import Mathlib

/-!
Shallow embedding of the identity-resolution core of the ocr_project
repository (files client_card_ocr.py, verify_with_db.py, normalize_ocr.py),
together with theorems settling the frozen claims about it.

Python strings are modelled as Lean String, Python floats used as scores as
rationals, Python dicts keyed by strings as insertion-ordered association
lists.  The OCR / image file system boundary is modelled by record fields
that carry the values Python computes from the outside world (extracted
identifier fields, the perceptual image hash string, the canonical JSON
serialization of the payload).
-/

namespace OcrProject

/-! ### Python string primitives -/

/-- Python str.strip: drop leading and trailing whitespace (modelled over
the ASCII whitespace characters recognised by Char.isWhitespace). -/
def pyStrip (l : List Char) : List Char :=
  ((l.dropWhile Char.isWhitespace).reverse.dropWhile Char.isWhitespace).reverse

/-- Python str.lower for the character ranges occurring in the data:
ASCII letters and Cyrillic letters (А..Я and Ё). -/
def pyLowerChar (c : Char) : Char :=
  if 'A' ≤ c ∧ c ≤ 'Z' then Char.ofNat (c.toNat + 32)
  else if c = 'Ё' then 'ё'
  else if 'А' ≤ c ∧ c ≤ 'Я' then Char.ofNat (c.toNat + 32)
  else c

def pyLower (l : List Char) : List Char := l.map pyLowerChar

/-- Python str.split() with no separator: split on whitespace runs,
dropping empty tokens.  The accumulator holds the current word reversed. -/
def pyWordsAux : List Char → List Char → List String
  | [], acc => if acc.isEmpty then [] else [String.mk acc.reverse]
  | c :: cs, acc =>
    if c.isWhitespace then
      if acc.isEmpty then pyWordsAux cs [] else String.mk acc.reverse :: pyWordsAux cs []
    else pyWordsAux cs (c :: acc)

def pyWords (s : String) : List String := pyWordsAux s.data []

/-- Python \x221c\x22.join(words). -/
def joinWords (ws : List String) : String := String.intercalate " " ws

/-- Python string comparison: lexicographic on code points. -/
def lexLe : List Char → List Char → Bool
  | [], _ => true
  | _ :: _, [] => false
  | a :: as, b :: bs =>
    if a.toNat < b.toNat then true
    else if b.toNat < a.toNat then false
    else lexLe as bs

/-- Python s1 <= s2 on strings. -/
def pyStrLe (a b : String) : Bool := lexLe a.data b.data

/-! ### difflib.SequenceMatcher (no junk, no autojunk regime)

Faithful translation of CPython difflib for sequences of characters with
isjunk=None; the autojunk popularity heuristic only applies to second
sequences of length at least 200, which is outside the regime evaluated
here, so the junk sets are empty. -/

/-- Ascending list of indices of occurrences of c in b (difflib b2j). -/
def occList (b : List Char) (c : Char) : List Nat :=
  (List.range b.length).filter (fun j => b.getD j ' ' = c)

/-- Dictionary lookup with default 0 (Python j2len.get(j, 0)). -/
def lookupD (m : List (Nat × Nat)) (k : Nat) : Nat :=
  match m.find? (fun p => p.1 = k) with
  | some p => p.2
  | none => 0

structure FlmBest where
  besti : Nat
  bestj : Nat
  bestsize : Nat
deriving Repr, DecidableEq

/-- Inner loop of find_longest_match over the occurrence list of a[i] in b:
skips j < blo (continue), stops at j ≥ bhi (break), extends the common
suffix length ending at (i, j) and updates the best block on strict
improvement. -/
def flmInner (j2len : List (Nat × Nat)) (i blo bhi : Nat) :
    List Nat → List (Nat × Nat) → FlmBest → List (Nat × Nat) × FlmBest
  | [], newm, best => (newm, best)
  | j :: js, newm, best =>
    if j < blo then flmInner j2len i blo bhi js newm best
    else if bhi ≤ j then (newm, best)
    else
      let k := (if j = 0 then 0 else lookupD j2len (j - 1)) + 1
      let newm2 := (j, k) :: newm
      let best2 := if best.bestsize < k then ⟨i + 1 - k, j + 1 - k, k⟩ else best
      flmInner j2len i blo bhi js newm2 best2

/-- Outer loop of find_longest_match over the rows of a. -/
def flmOuter (a b : List Char) (blo bhi : Nat) :
    List Nat → List (Nat × Nat) → FlmBest → FlmBest
  | [], _, best => best
  | i :: is, j2len, best =>
    let step := flmInner j2len i blo bhi (occList b (a.getD i ' ')) [] best
    flmOuter a b blo bhi is step.1 step.2

/-- While loop extending the best block to the left while the adjacent
characters match (a no-op when the DP already found the maximum, kept for
faithfulness to the source); fuel bounds the iteration count. -/
def flmExtendLeft (a b : List Char) (alo blo : Nat) :
    Nat → FlmBest → FlmBest
  | 0, best => best
  | fuel + 1, best =>
    if alo < best.besti ∧ blo < best.bestj ∧
        a.getD (best.besti - 1) ' ' = b.getD (best.bestj - 1) ' ' then
      flmExtendLeft a b alo blo fuel ⟨best.besti - 1, best.bestj - 1, best.bestsize + 1⟩
    else best

/-- While loop extending the best block to the right. -/
def flmExtendRight (a b : List Char) (ahi bhi : Nat) :
    Nat → FlmBest → FlmBest
  | 0, best => best
  | fuel + 1, best =>
    if best.besti + best.bestsize < ahi ∧ best.bestj + best.bestsize < bhi ∧
        a.getD (best.besti + best.bestsize) ' ' = b.getD (best.bestj + best.bestsize) ' ' then
      flmExtendRight a b ahi bhi fuel ⟨best.besti, best.bestj, best.bestsize + 1⟩
    else best

/-- difflib SequenceMatcher.find_longest_match on a[alo:ahi] vs b[blo:bhi]. -/
def findLongestMatch (a b : List Char) (alo ahi blo bhi : Nat) : FlmBest :=
  let base := flmOuter a b blo bhi (List.range' alo (ahi - alo)) [] ⟨alo, blo, 0⟩
  let left := flmExtendLeft a b alo blo base.besti base
  flmExtendRight a b ahi bhi (ahi - (left.besti + left.bestsize)) left

/-- Total size of the matching blocks of get_matching_blocks: the longest
block plus recursion on the parts to its left and right. -/
def matchingSize (a b : List Char) : Nat → Nat × Nat × Nat × Nat → Nat
  | 0, _ => 0
  | fuel + 1, (alo, ahi, blo, bhi) =>
    let m := findLongestMatch a b alo ahi blo bhi
    if m.bestsize = 0 then 0
    else
      m.bestsize +
        (if alo < m.besti ∧ blo < m.bestj then
          matchingSize a b fuel (alo, m.besti, blo, m.bestj) else 0) +
        (if m.besti + m.bestsize < ahi ∧ m.bestj + m.bestsize < bhi then
          matchingSize a b fuel (m.besti + m.bestsize, ahi, m.bestj + m.bestsize, bhi) else 0)

/-- difflib SequenceMatcher(None, a, b).ratio() as an exact rational:
2*M/T, and 1.0 when both sequences are empty. -/
def ratioQ (a b : String) : ℚ :=
  let la := a.data.length
  let lb := b.data.length
  if la + lb = 0 then 1
  else (2 * (matchingSize a.data b.data (la + lb + 1) (0, la, 0, lb)) : ℚ) / (la + lb)

/-! ### verify_with_db.py -/

namespace VerifyWithDb

/-- Python value as it reaches normalize_phone from a spreadsheet cell:
None, a string, or a float (carrying only the digit string it would render
to, which the function never inspects). -/
inductive PyVal where
  | vnone : PyVal
  | vstr : String → PyVal
  | vfloat : String → PyVal
deriving DecidableEq, Repr

/-- verify_with_db.normalize_name: guard non-strings and falsy values,
strip+lower, drop a leading bracketed id, collapse whitespace, fold ё to е. -/
def normalize_name (name : String) : String :=
  if name = "" then ""
  else
    let l := pyLower (OcrProject.pyStrip name.data)
    let l := if l.head? = some '[' ∧ l.contains ']' then
        OcrProject.pyStrip ((l.dropWhile (fun c => c ≠ ']')).drop 1)
      else l
    let s := joinWords (pyWordsAux l [])
    String.mk (s.data.map (fun c => if c = 'ё' then 'е' else c))

/-- verify_with_db.normalize_phone: empty for falsy or float input, else
keep digits and canonicalize 8XXXXXXXXXX / 10-digit forms to 7XXXXXXXXXX. -/
def normalize_phone : PyVal → String
  | .vnone => ""
  | .vfloat _ => ""
  | .vstr s =>
    if s = "" then ""
    else
      let digits := String.mk ((OcrProject.pyStrip s.data).filter Char.isDigit)
      if digits.length = 11 ∧ digits.data.head? = some '8' then
        String.mk ('7' :: digits.data.drop 1)
      else if digits.length = 10 then String.mk ('7' :: digits.data)
      else digits

/-- verify_with_db.fuzzy_match: 0 on empty input, else SequenceMatcher
ratio. -/
def fuzzy_match (s1 s2 : String) : ℚ :=
  if s1 = "" ∨ s2 = "" then 0 else ratioQ s1 s2

/-- Python substring containment s1 in s2 over character lists. -/
def isSubstrOf : List Char → List Char → Bool
  | needle, [] => needle.isEmpty
  | needle, c :: t => needle.isPrefixOf (c :: t) || isSubstrOf needle t

/-- Python set(xs).issubset(set(ys)) for word lists. -/
def wordSubset (xs ys : List String) : Bool :=
  xs.all (fun w => ys.contains w)

/-- verify_with_db.match_names, parameterized by the
SUBSTRING_WORD_BOUNDARY_ONLY config toggle (True when config does not
override it, which is the documented default). -/
def match_names (wordBoundaryOnly : Bool) (ocr_name db_name : String) : ℚ :=
  let n1 := normalize_name ocr_name
  let n2 := normalize_name db_name
  if n1 = "" ∨ n2 = "" then 0
  else if n1 = n2 then 1
  else
    let contained :=
      if wordBoundaryOnly then
        wordSubset (pyWords n1) (pyWords n2) || wordSubset (pyWords n2) (pyWords n1)
      else
        isSubstrOf n1.data n2.data || isSubstrOf n2.data n1.data
    if contained then (19 : ℚ) / 20
    else
      let parts1 := pyWords n1
      let parts2 := pyWords n2
      if parts1 ≠ [] ∧ parts2 ≠ [] ∧ parts1.headD "" = parts2.headD "" ∧
          3 ≤ (parts1.headD "").length then
        let fs := fuzzy_match n1 n2
        max (fs + 1 / 50) fs
      else fuzzy_match n1 n2

/-- The fields of a find_best_match result that the status classification
reads. -/
structure MatchInfo where
  score : ℚ
  phone_match : Bool
deriving DecidableEq, Repr

/-- The three verify_clients database-status tiers. -/
inductive StatusBD where
  | found : StatusBD
  | maybe : StatusBD
  | notFound : StatusBD
deriving DecidableEq, Repr

/-- Status classification of verify_clients for one OCR row: Found needs a
match with a phone hit, or a full (two-plus word) raw name with score at
least 0.85 (MIN_FIO_WORDS_FOR_CONFIDENT_MATCH = 2); any other match is
Maybe; no match is Not-found. -/
def statusBD (res : Option MatchInfo) (ocr_name : String) : StatusBD :=
  match res with
  | none => .notFound
  | some m =>
    let fio_words := (pyWordsAux (OcrProject.pyStrip ocr_name.data) []).length
    if m.phone_match ∨ (2 ≤ fio_words ∧ (17 : ℚ) / 20 ≤ m.score) then .found
    else .maybe

/-- Distinct nonempty normalized names in first-occurrence order: the keys
of the build_db_client_index dict (rows with a falsy name_norm are
skipped). -/
def indexKeysAux : List String → List String → List String
  | [], seen => seen.reverse
  | n :: rest, seen =>
    if n = "" ∨ n ∈ seen then indexKeysAux rest seen else indexKeysAux rest (n :: seen)

def indexKeys (norms : List String) : List String := indexKeysAux norms []

/-- Python f-string 04d zero padding. -/
def pad4 (n : Nat) : String :=
  let s := toString n
  String.mk (List.replicate (4 - s.length) '0' ++ s.data)

/-- Sorted distinct normalized names of the raw name column, as sorted by
build_db_client_index before numbering. -/
def sortedNames (rawNames : List String) : List String :=
  (indexKeys (rawNames.map normalize_name)).mergeSort pyStrLe

/-- The db_id that build_db_client_index assigns to a normalized name given
the raw name column of the database rows (none when the name is not a key
of the index). -/
def db_id_of (rawNames : List String) (key : String) : Option String :=
  let keys := sortedNames rawNames
  if key ∈ keys then some ("DB-" ++ pad4 (keys.findIdx (fun x => x = key) + 1))
  else none

end VerifyWithDb

/-! ### normalize_ocr.py -/

namespace NormalizeOcr

/-- normalize_ocr.normalize_phone: textually the same function as the
verify_with_db one. -/
def normalize_phone : VerifyWithDb.PyVal → String
  | .vnone => ""
  | .vfloat _ => ""
  | .vstr s =>
    if s = "" then ""
    else
      let digits := String.mk ((OcrProject.pyStrip s.data).filter Char.isDigit)
      if digits.length = 11 ∧ digits.data.head? = some '8' then
        String.mk ('7' :: digits.data.drop 1)
      else if digits.length = 10 then String.mk ('7' :: digits.data)
      else digits

end NormalizeOcr

/-! ### client_card_ocr.py: grouping and deduplication -/

namespace ClientCardOcr

/-- client_card_ocr.normalize_name: strip, lower, split, sort the words
alphabetically and rejoin. -/
def normalize_name (name : String) : String :=
  if name = "" then ""
  else joinWords ((pyWordsAux (pyLower (OcrProject.pyStrip name.data)) []).mergeSort pyStrLe)

/-- One per-page OCR result record, carrying the values the pipeline
derives from the raw LLM payload and the image file: the extracted
identifier fields (collect_name_phone_iin output), the OCR text, the
perceptual image hash (empty when the image file is missing or
unreadable), and the canonical sort_keys JSON serialization of the data
payload. -/
structure Page where
  page_type : String
  fio : String
  phone : String
  iin : String
  ocr_text : String
  filename : String
  img_hash : String
  data_json : String
deriving DecidableEq, Repr, Inhabited

structure Identifiers where
  fio : String
  phone : String
  iin : String
deriving DecidableEq, Repr

/-- client_card_ocr.extract_identifiers as the projection to the already
collected canonical fio/phone/iin fields of the record. -/
def extract_identifiers (p : Page) : Identifiers := ⟨p.fio, p.phone, p.iin⟩

/-- A client cluster value of the grouping dict. -/
structure Client where
  name : String
  phone : String
  iin : String
  pages : List Page
deriving DecidableEq, Repr, Inhabited

/-- The grouping dict: an insertion-ordered association list. -/
abbrev Clients := List (String × Client)

/-- Python s.replace each of space, dash, plus with the empty string. -/
def stripPhoneChars (s : String) : String :=
  String.mk (s.data.filter (fun c => ¬(c = ' ' ∨ c = '-' ∨ c = '+')))

/-- Python s.replace space with the empty string. -/
def stripSpaces (s : String) : String :=
  String.mk (s.data.filter (fun c => c ≠ ' '))

/-- Priority check 1 of find_matching_client: both sides carry a national
id and they are equal after dropping spaces. -/
def iinCond (ids : Identifiers) (c : Client) : Bool :=
  stripSpaces ids.iin ≠ "" && c.iin ≠ "" && stripSpaces ids.iin = stripSpaces c.iin

/-- Priority check 2 of find_matching_client: the page phone stripped of
space, dash and plus has length at least 7, the cluster has a phone, and
the last seven characters agree. -/
def phoneCond (ids : Identifiers) (c : Client) : Bool :=
  let np := stripPhoneChars ids.phone
  let cp := stripPhoneChars c.phone
  np ≠ "" && 7 ≤ np.length && c.phone ≠ "" && cp ≠ "" && np.takeRight 7 = cp.takeRight 7

/-- Priority check 3 of find_matching_client: fuzzy name similarity at or
above the threshold; fm is the fuzzy_match backend (rapidfuzz or difflib
depending on the environment). -/
def nameCond (fm : String → String → ℚ) (threshold : ℚ) (ids : Identifiers) (c : Client) : Bool :=
  ids.fio ≠ "" && c.name ≠ "" && threshold ≤ fm ids.fio c.name

/-- client_card_ocr.find_matching_client: first cluster in insertion order
passing any of the three checks. -/
def find_matching_client (fm : String → String → ℚ) (threshold : ℚ) (ids : Identifiers) :
    Clients → Option String
  | [] => none
  | (k, c) :: rest =>
    if iinCond ids c || phoneCond ids c || nameCond fm threshold ids c then some k
    else find_matching_client fm threshold ids rest

/-- Update the first entry with the given key by f, when present. -/
def updateClient (cs : Clients) (key : String) (f : Client → Client) : Clients :=
  match cs with
  | [] => []
  | (k, c) :: rest =>
    if k = key then (k, f c) :: rest else (k, c) :: updateClient rest key f

/-- Python dict assignment clients[key] = c: replace in place or append. -/
def assocSet (cs : Clients) (key : String) (c : Client) : Clients :=
  if cs.any (fun e => e.1 = key) then updateClient cs key (fun _ => c)
  else cs ++ [(key, c)]

/-- Appending a matched page to its cluster and backfilling phone and iin
when the cluster lacks them (group_by_client match branch). -/
def appendAndBackfill (ids : Identifiers) (p : Page) (c : Client) : Client :=
  { c with
    pages := c.pages ++ [p]
    phone := if ids.phone ≠ "" ∧ c.phone = "" then ids.phone else c.phone
    iin := if ids.iin ≠ "" ∧ c.iin = "" then ids.iin else c.iin }

/-- Grouping loop state: the clusters built so far and the unmatched pages
collected for the fallback pass. -/
structure GState where
  clients : Clients
  unmatched : List Page
deriving Repr

/-- One iteration of the main group_by_client loop. -/
def processPage (fm : String → String → ℚ) (threshold : ℚ) (st : GState) (p : Page) : GState :=
  if p.page_type = "error" then { st with unmatched := st.unmatched ++ [p] }
  else
    let ids := extract_identifiers p
    if ids.fio = "" ∧ ids.phone = "" ∧ ids.iin = "" then
      { st with unmatched := st.unmatched ++ [p] }
    else
      match find_matching_client fm threshold ids st.clients with
      | some key => { st with clients := updateClient st.clients key (appendAndBackfill ids p) }
      | none =>
        let name := if ids.fio ≠ "" then ids.fio else "(без ФИО)"
        { st with clients := st.clients ++
            [("client_" ++ toString (st.clients.length + 1),
              ⟨name, ids.phone, ids.iin, [p]⟩)] }

/-- The page-category priority list of group_by_client. -/
def priorityOrder : List String :=
  ["medical_card_front", "complex_package", "procedure_sheet",
   "products_list", "medical_card_inner", "botox_record"]

/-- Sort key: index in the priority list, 99 for other categories. -/
def prioKey (p : Page) : Nat :=
  if priorityOrder.contains p.page_type then
    priorityOrder.findIdx (fun s => s = p.page_type)
  else 99

/-- One iteration of the second matching pass over fallback pages. -/
def attachStep (fm : String → String → ℚ) (threshold : ℚ)
    (acc : Clients × List Page) (p : Page) : Clients × List Page :=
  let ids := extract_identifiers p
  let mk := if ids.fio ≠ "" ∨ ids.phone ≠ "" ∨ ids.iin ≠ "" then
      find_matching_client fm threshold ids acc.1
    else none
  match mk with
  | some key => (updateClient acc.1 key (fun c => { c with pages := c.pages ++ [p] }), acc.2)
  | none => (acc.1, acc.2 ++ [p])

/-- The final block of group_by_client: when fallback pages exist, either
promote them into a single cluster (no named cluster exists) or retry the
match and attach the leftovers to the first named cluster. -/
def resolveUnmatched (fm : String → String → ℚ) (threshold : ℚ) (st : GState) : Clients :=
  match st.unmatched with
  | [] => st.clients
  | p0 :: _ =>
    let existing := st.clients.filter (fun e => e.1 ≠ "_unmatched")
    if existing = [] then
      let ids := extract_identifiers p0
      let name :=
        if ids.fio ≠ "" then ids.fio
        else if ids.phone ≠ "" ∨ ids.iin ≠ "" then "(без ФИО)"
        else "⚠ Не удалось определить клиента"
      assocSet st.clients "client_1" ⟨name, ids.phone, ids.iin, st.unmatched⟩
    else
      let primary := (existing.headD ("", default)).1
      let fin := st.unmatched.foldl (attachStep fm threshold) (st.clients, [])
      if fin.2 = [] then fin.1
      else updateClient fin.1 primary (fun c => { c with pages := c.pages ++ fin.2 })

/-- client_card_ocr.group_by_client: sort by category priority, run the
main loop, then resolve the fallback pages so no page is dropped. -/
def group_by_client (fm : String → String → ℚ) (threshold : ℚ) (results : List Page) : Clients :=
  resolveUnmatched fm threshold
    ((results.mergeSort (fun a b => decide (prioKey a ≤ prioKey b))).foldl
      (processPage fm threshold) ⟨[], []⟩)

/-- All pages of all clusters, in cluster order. -/
def allPages : Clients → List Page
  | [] => []
  | (_, c) :: rest => c.pages ++ allPages rest

/-! #### Duplicate-page detector -/

/-- client_card_ocr.hamming_distance over hash strings, 1.0 on empty or
mismatched lengths. -/
def hamming_distance (h1 h2 : String) : ℚ :=
  if h1 = "" ∨ h2 = "" ∨ h1.data.length ≠ h2.data.length then 1
  else ((h1.data.zip h2.data).countP (fun p => p.1 ≠ p.2) : ℚ) / h1.data.length

/-- client_card_ocr.text_similarity, parameterized by the ratio backend
(rapidfuzz or difflib depending on the environment). -/
def text_similarity (sim : String → String → ℚ) (t1 t2 : String) : ℚ :=
  if t1 = "" ∨ t2 = "" then 0
  else
    let n1 := joinWords (pyWordsAux (pyLower t1.data) [])
    let n2 := joinWords (pyWordsAux (pyLower t2.data) [])
    if n1 = n2 then 1 else sim n1 n2

/-- The three-level duplicate test of deduplicate_pages for the pages at
indices i and j of a cluster (hashes is the precomputed per-page image
hash list). -/
def isDuplicate (sim : String → String → ℚ) (ocrThreshold : ℚ)
    (pages : List Page) (hashes : List String) (i j : Nat) : Bool :=
  let hi := hashes.getD i ""
  let hj := hashes.getD j ""
  let pi_ := pages.getD i default
  let pj := pages.getD j default
  (hi ≠ "" && hj ≠ "" && hamming_distance hi hj < 1 / 10) ||
  (pi_.ocr_text ≠ "" && pj.ocr_text ≠ "" &&
    ocrThreshold ≤ text_similarity sim pi_.ocr_text pj.ocr_text) ||
  (pi_.page_type = pj.page_type && pi_.page_type ≠ "unknown" &&
    pi_.data_json = pj.data_json)

/-- Add an index to the removal set (list with set semantics). -/
def pushIdx (rem : List Nat) (x : Nat) : List Nat :=
  if x ∈ rem then rem else rem ++ [x]

/-- Inner loop of the dedup pair scan for a fixed i: skips j already in
the removal set, otherwise records the evaluation (with a snapshot of the
removal set) and, on a duplicate, marks the page with the shorter OCR text
(the later index j on ties). -/
def dedupInner (dup : Nat → Nat → Bool) (lenf : Nat → Nat) (i : Nat) :
    List Nat → List Nat → List (Nat × Nat × List Nat) → List Nat × List (Nat × Nat × List Nat)
  | [], rem, evals => (rem, evals)
  | j :: js, rem, evals =>
    if j ∈ rem then dedupInner dup lenf i js rem evals
    else
      let evals2 := evals ++ [(i, j, rem)]
      let rem2 := if dup i j then (if lenf j ≤ lenf i then pushIdx rem j else pushIdx rem i)
        else rem
      dedupInner dup lenf i js rem2 evals2

/-- Outer loop of the dedup pair scan: skips i already in the removal set,
otherwise records the entry snapshot and scans the pairs (i, j) for
j > i. -/
def dedupOuter (dup : Nat → Nat → Bool) (lenf : Nat → Nat) (n : Nat) :
    List Nat → List Nat → List (Nat × Nat × List Nat) → List (Nat × List Nat) →
    List Nat × List (Nat × Nat × List Nat) × List (Nat × List Nat)
  | [], rem, evals, outer => (rem, evals, outer)
  | i :: is, rem, evals, outer =>
    if i ∈ rem then dedupOuter dup lenf n is rem evals outer
    else
      let outer2 := outer ++ [(i, rem)]
      let inner := dedupInner dup lenf i (List.range' (i + 1) (n - (i + 1))) rem evals
      dedupOuter dup lenf n is inner.1 inner.2 outer2

/-- The full pair scan of deduplicate_pages over one cluster page list:
returns the removal set, the trace of evaluated comparisons (i, j,
removal-set snapshot) and the trace of entered outer iterations. -/
def dedupScan (dup : Nat → Nat → Bool) (lenf : Nat → Nat) (n : Nat) :
    List Nat × List (Nat × Nat × List Nat) × List (Nat × List Nat) :=
  dedupOuter dup lenf n (List.range n) [] [] []

/-- Pair scan instantiated with the real duplicate test and OCR text
lengths of a page list. -/
def dedupScanPages (sim : String → String → ℚ) (ocrThreshold : ℚ) (pages : List Page) :
    List Nat × List (Nat × Nat × List Nat) × List (Nat × List Nat) :=
  let hashes := pages.map (fun p => p.img_hash)
  dedupScan (isDuplicate sim ocrThreshold pages hashes)
    (fun idx => (pages.getD idx default).ocr_text.length) pages.length

/-- Remove the pages whose indices were marked. -/
def filterRemoved (pages : List Page) (rem : List Nat) : List Page :=
  ((List.range pages.length).filter (fun idx => idx ∉ rem)).map
    (fun idx => pages.getD idx default)

/-- client_card_ocr.deduplicate_pages: per cluster (skipping the fallback
key and single-page clusters) drop the marked duplicate pages. -/
def deduplicate_pages (sim : String → String → ℚ) (ocrThreshold : ℚ) (cs : Clients) : Clients :=
  cs.map (fun e =>
    if e.1 = "_unmatched" ∨ e.2.pages.length ≤ 1 then e
    else
      let rem := (dedupScanPages sim ocrThreshold e.2.pages).1
      if rem = [] then e
      else (e.1, { e.2 with pages := filterRemoved e.2.pages rem }))

end ClientCardOcr

/-! ### Helper lemmas: the code-point order is a linear order -/

theorem lexLe_total : ∀ a b : List Char, lexLe a b = true ∨ lexLe b a = true
  | [], _ => Or.inl rfl
  | _ :: _, [] => Or.inr rfl
  | a :: as, b :: bs => by
    by_cases h1 : a.toNat < b.toNat
    · exact Or.inl (by simp [lexLe, h1])
    · by_cases h2 : b.toNat < a.toNat
      · exact Or.inr (by simp [lexLe, h1, h2])
      · rcases lexLe_total as bs with h | h
        · exact Or.inl (by simp [lexLe, h1, h2, h])
        · exact Or.inr (by simp [lexLe, h1, h2, h])

theorem lexLe_trans : ∀ a b c : List Char,
    lexLe a b = true → lexLe b c = true → lexLe a c = true
  | [], _, _, _, _ => rfl
  | _ :: _, [], _, h, _ => by simp [lexLe] at h
  | _ :: _, _ :: _, [], _, h => by simp [lexLe] at h
  | a :: as, b :: bs, c :: cs, h1, h2 => by
    simp only [lexLe] at h1 h2 ⊢
    have key1 : a.toNat < b.toNat ∨ (a.toNat = b.toNat ∧ lexLe as bs = true) := by
      by_cases hab : a.toNat < b.toNat
      · exact Or.inl hab
      · by_cases hba : b.toNat < a.toNat
        · simp [hab, hba] at h1
        · exact Or.inr ⟨by omega, by simpa [hab, hba] using h1⟩
    have key2 : b.toNat < c.toNat ∨ (b.toNat = c.toNat ∧ lexLe bs cs = true) := by
      by_cases hbc : b.toNat < c.toNat
      · exact Or.inl hbc
      · by_cases hcb : c.toNat < b.toNat
        · simp [hbc, hcb] at h2
        · exact Or.inr ⟨by omega, by simpa [hbc, hcb] using h2⟩
    rcases key1 with hab | ⟨hab, hr1⟩ <;> rcases key2 with hbc | ⟨hbc, hr2⟩
    · simp [show a.toNat < c.toNat by omega]
    · simp [show a.toNat < c.toNat by omega]
    · simp [show a.toNat < c.toNat by omega]
    · simp [show ¬a.toNat < c.toNat by omega, show ¬c.toNat < a.toNat by omega,
        lexLe_trans as bs cs hr1 hr2]

theorem charEq_of_toNat_eq {a b : Char} (h : a.toNat = b.toNat) : a = b := by
  apply Char.ext
  apply UInt32.ext
  exact h

theorem lexLe_antisymm : ∀ a b : List Char,
    lexLe a b = true → lexLe b a = true → a = b
  | [], [], _, _ => rfl
  | [], _ :: _, _, h => by simp [lexLe] at h
  | _ :: _, [], h, _ => by simp [lexLe] at h
  | a :: as, b :: bs, h1, h2 => by
    simp only [lexLe] at h1 h2
    by_cases hab : a.toNat < b.toNat <;> by_cases hba : b.toNat < a.toNat <;>
      simp [hab, hba] at h1 h2
    · omega
    · have hc : a = b := charEq_of_toNat_eq (by omega)
      have : as = bs := lexLe_antisymm as bs h1 h2
      rw [hc, this]

theorem pyStrLe_trans (a b c : String) (h1 : pyStrLe a b = true) (h2 : pyStrLe b c = true) :
    pyStrLe a c = true :=
  lexLe_trans a.data b.data c.data h1 h2

theorem pyStrLe_total (a b : String) : (pyStrLe a b || pyStrLe b a) = true := by
  rcases lexLe_total a.data b.data with h | h <;> simp [pyStrLe, h]

theorem pyStrLe_antisymm {a b : String} (h1 : pyStrLe a b = true) (h2 : pyStrLe b a = true) :
    a = b := by
  have h := lexLe_antisymm a.data b.data h1 h2
  cases a; cases b
  exact congrArg String.mk h

instance instIsAntisymmPyStrLe : IsAntisymm String (fun a b => pyStrLe a b = true) :=
  ⟨fun _ _ h1 h2 => pyStrLe_antisymm h1 h2⟩

/-- Two merge sorts by the code-point order agree on permuted inputs. -/
theorem mergeSort_pyStrLe_eq_of_perm {l₁ l₂ : List String} (h : l₁.Perm l₂) :
    l₁.mergeSort pyStrLe = l₂.mergeSort pyStrLe := by
  have hp : (l₁.mergeSort pyStrLe).Perm (l₂.mergeSort pyStrLe) :=
    (List.mergeSort_perm l₁ pyStrLe).trans (h.trans (List.mergeSort_perm l₂ pyStrLe).symm)
  have hs₁ : List.Sorted (fun a b : String => pyStrLe a b = true) (l₁.mergeSort pyStrLe) :=
    List.sorted_mergeSort (fun a b c hab hbc => pyStrLe_trans a b c hab hbc) pyStrLe_total l₁
  have hs₂ : List.Sorted (fun a b : String => pyStrLe a b = true) (l₂.mergeSort pyStrLe) :=
    List.sorted_mergeSort (fun a b c hab hbc => pyStrLe_trans a b c hab hbc) pyStrLe_total l₂
  exact List.eq_of_perm_of_sorted hp hs₁ hs₂

/-! ### Claim C10 -/

/-- C10: normalize_phone (both the verify_with_db and the normalize_ocr
copy) returns the empty string for every falsy input (None or the empty
string) and for every float input, regardless of the digits the float
would render to. -/
theorem claim_C10_normalize_phone_falsy_or_float (v : VerifyWithDb.PyVal)
    (h : v = .vnone ∨ v = .vstr "" ∨ ∃ d, v = .vfloat d) :
    VerifyWithDb.normalize_phone v = "" ∧ NormalizeOcr.normalize_phone v = "" := by
  rcases h with h | h | ⟨d, h⟩ <;> subst h <;>
    simp [VerifyWithDb.normalize_phone, NormalizeOcr.normalize_phone]

/-- Witness for C10 at a float rendering to a plausible phone number. -/
theorem claim_C10_witness :
    VerifyWithDb.normalize_phone (.vfloat "87012345678.0") = "" ∧
      NormalizeOcr.normalize_phone (.vfloat "87012345678.0") = "" :=
  claim_C10_normalize_phone_falsy_or_float (.vfloat "87012345678.0")
    (Or.inr (Or.inr ⟨"87012345678.0", rfl⟩))

/-! ### Claim C5 -/

/-- C5: with a best match present, the status is the confident tier exactly
when the phone matched or the raw OCR name has at least two words and the
score is at least 0.85; otherwise it is the maybe tier; without a match it
is the not-found tier.  A one-word name with score 0.90 and no phone match
lands in maybe, the same name with a phone match in found. -/
theorem claim_C5_status_tiers :
    (∀ (m : VerifyWithDb.MatchInfo) (name : String),
      VerifyWithDb.statusBD (some m) name = .found ↔
        (m.phone_match = true ∨
          (2 ≤ (pyWordsAux (pyStrip name.data) []).length ∧ (17 : ℚ) / 20 ≤ m.score))) ∧
    (∀ (m : VerifyWithDb.MatchInfo) (name : String),
      VerifyWithDb.statusBD (some m) name = .maybe ↔
        ¬(m.phone_match = true ∨
          (2 ≤ (pyWordsAux (pyStrip name.data) []).length ∧ (17 : ℚ) / 20 ≤ m.score))) ∧
    (∀ name : String, VerifyWithDb.statusBD none name = .notFound) ∧
    VerifyWithDb.statusBD (some ⟨9 / 10, false⟩) "Иванов" = .maybe ∧
    VerifyWithDb.statusBD (some ⟨9 / 10, true⟩) "Иванов" = .found := by
  refine ⟨?_, ?_, fun _ => rfl, by decide, by decide⟩
  · intro m name
    simp only [VerifyWithDb.statusBD]
    split
    · rename_i h
      exact iff_of_true rfl h
    · rename_i h
      exact iff_of_false (by simp) h
  · intro m name
    simp only [VerifyWithDb.statusBD]
    split
    · rename_i h
      exact iff_of_false (by simp) (not_not_intro h)
    · rename_i h
      exact iff_of_true rfl h

/-! ### Claim C8 -/

/-- C8: an exact-identifier short circuit in find_matching_client (equal
stripped national ids, or phones of length at least 7 agreeing on the last
seven characters) makes the first cluster match for every fuzzy backend,
threshold and pair of names, in particular when the name similarity is 0. -/
theorem claim_C8_exact_id_short_circuit (fm : String → String → ℚ) (thr : ℚ)
    (ids : ClientCardOcr.Identifiers) (k : String) (c : ClientCardOcr.Client)
    (rest : ClientCardOcr.Clients)
    (h : ClientCardOcr.iinCond ids c = true ∨ ClientCardOcr.phoneCond ids c = true) :
    ClientCardOcr.find_matching_client fm thr ids ((k, c) :: rest) = some k := by
  rcases h with h | h <;> simp [ClientCardOcr.find_matching_client, h]

/-- Witness for C8: national-id equality (up to spaces) merges a page into
a cluster although the names are entirely different and the fuzzy backend
returns similarity 0 for every pair. -/
theorem claim_C8_witness :
    ClientCardOcr.find_matching_client (fun _ _ => 0) (3 / 4)
      ⟨"Анна Каренина", "", "123456789012"⟩
      [("client_1", ⟨"Борис Годунов", "", "1234 5678 9012", []⟩)] = some "client_1" :=
  claim_C8_exact_id_short_circuit (fun _ _ => 0) (3 / 4)
    ⟨"Анна Каренина", "", "123456789012"⟩ "client_1"
    ⟨"Борис Годунов", "", "1234 5678 9012", []⟩ [] (Or.inl (by decide))

/-! ### Claim C2 -/

unseal Rat.mul Rat.inv Rat.add Rat.sub in
set_option maxRecDepth 8000 in
/-- C2 failing input: on two 25 and 26 character names sharing the first
word, the surname-anchor branch of match_names returns the SequenceMatcher
similarity 50/51 plus the 0.02 bonus, that is 2551/2550, which exceeds 1,
contradicting the documented codomain of the function. -/
theorem claim_C2_match_names_exceeds_one :
    (1 : ℚ) < VerifyWithDb.match_names true
      "abc defghijklmnopqrstuvwx" "abc defghijklmnopqrstuvwxy" := by
  decide

/-! ### Claim C4 -/

unseal Rat.mul Rat.inv Rat.add Rat.sub in
/-- C4: with the word-boundary toggle on, whole-word containment of one
nonempty normalized name in the other (both unequal) scores exactly 0.95,
a single word that is merely a substring of the other name does not
trigger the rule (match_names of Ivan and Ivanova stays below 0.85), and
whole-word containment reaches 0.95 (Ivanov against Ivanov Ivan). -/
theorem claim_C4_word_boundary_containment :
    (∀ a b : String,
      VerifyWithDb.normalize_name a ≠ "" →
      VerifyWithDb.normalize_name b ≠ "" →
      VerifyWithDb.normalize_name a ≠ VerifyWithDb.normalize_name b →
      (VerifyWithDb.wordSubset (pyWords (VerifyWithDb.normalize_name a))
          (pyWords (VerifyWithDb.normalize_name b)) = true ∨
        VerifyWithDb.wordSubset (pyWords (VerifyWithDb.normalize_name b))
          (pyWords (VerifyWithDb.normalize_name a)) = true) →
      VerifyWithDb.match_names true a b = 19 / 20) ∧
    VerifyWithDb.match_names true "Ivan" "Ivanova" < 17 / 20 ∧
    19 / 20 ≤ VerifyWithDb.match_names true "Ivanov" "Ivanov Ivan" := by
  refine ⟨?_, by decide, by decide⟩
  intro a b h1 h2 h3 h4
  simp only [VerifyWithDb.match_names]
  rw [if_neg (by simp [h1, h2]), if_neg h3]
  rcases h4 with h | h <;> simp [h]

unseal Rat.mul Rat.inv Rat.add Rat.sub in
/-- Witness for C4 at the whole-word containment example pair. -/
theorem claim_C4_witness :
    VerifyWithDb.match_names true "Ivanov" "Ivanov Ivan" = 19 / 20 :=
  claim_C4_word_boundary_containment.1 "Ivanov" "Ivanov Ivan"
    (by decide) (by decide) (by decide) (Or.inl (by decide))

/-! ### Claim C6 -/

theorem mem_indexKeysAux : ∀ (l seen : List String) (x : String),
    x ∈ VerifyWithDb.indexKeysAux l seen ↔ x ∈ seen ∨ (x ∈ l ∧ x ≠ "")
  | [], seen, x => by simp [VerifyWithDb.indexKeysAux]
  | n :: rest, seen, x => by
    simp only [VerifyWithDb.indexKeysAux]
    split
    · rename_i h
      rw [mem_indexKeysAux rest seen x]
      simp only [List.mem_cons]
      rcases h with h | h
      · subst h
        constructor
        · rintro (hx | hx)
          · exact Or.inl hx
          · exact Or.inr ⟨Or.inr hx.1, hx.2⟩
        · rintro (hx | ⟨(rfl | hx), hne⟩)
          · exact Or.inl hx
          · exact absurd rfl hne
          · exact Or.inr ⟨hx, hne⟩
      · constructor
        · rintro (hx | hx)
          · exact Or.inl hx
          · exact Or.inr ⟨Or.inr hx.1, hx.2⟩
        · rintro (hx | ⟨(rfl | hx), hne⟩)
          · exact Or.inl hx
          · exact Or.inl h
          · exact Or.inr ⟨hx, hne⟩
    · rename_i h
      push_neg at h
      rw [mem_indexKeysAux rest (n :: seen) x]
      simp only [List.mem_cons]
      constructor
      · rintro ((rfl | hx) | ⟨hx, hne⟩)
        · exact Or.inr ⟨Or.inl rfl, h.1⟩
        · exact Or.inl hx
        · exact Or.inr ⟨Or.inr hx, hne⟩
      · rintro (hx | ⟨(rfl | hx), hne⟩)
        · exact Or.inl (Or.inr hx)
        · exact Or.inl (Or.inl rfl)
        · exact Or.inr ⟨hx, hne⟩

theorem nodup_indexKeysAux : ∀ (l seen : List String), seen.Nodup →
    (VerifyWithDb.indexKeysAux l seen).Nodup
  | [], seen, h => by
    simpa [VerifyWithDb.indexKeysAux, List.nodup_reverse] using h
  | n :: rest, seen, h => by
    simp only [VerifyWithDb.indexKeysAux]
    split
    · exact nodup_indexKeysAux rest seen h
    · rename_i hn
      push_neg at hn
      exact nodup_indexKeysAux rest (n :: seen) (List.nodup_cons.mpr ⟨hn.2, h⟩)

theorem sortedNames_eq_of_perm (rows1 rows2 : List String) (h : rows1.Perm rows2) :
    VerifyWithDb.sortedNames rows1 = VerifyWithDb.sortedNames rows2 := by
  unfold VerifyWithDb.sortedNames
  apply mergeSort_pyStrLe_eq_of_perm
  apply (List.perm_ext_iff_of_nodup
    (nodup_indexKeysAux _ [] List.nodup_nil) (nodup_indexKeysAux _ [] List.nodup_nil)).mpr
  intro x
  rw [mem_indexKeysAux _ [] x, mem_indexKeysAux _ [] x]
  have hm : x ∈ rows1.map VerifyWithDb.normalize_name ↔
      x ∈ rows2.map VerifyWithDb.normalize_name :=
    (h.map VerifyWithDb.normalize_name).mem_iff
  simp [hm]

/-- C6: the db_id that build_db_client_index assigns to a normalized name
depends only on the multiset of raw database rows: permuting the rows
leaves every assignment unchanged. -/
theorem claim_C6_db_id_row_order_independent (rows1 rows2 : List String) (key : String)
    (h : rows1.Perm rows2) :
    VerifyWithDb.db_id_of rows1 key = VerifyWithDb.db_id_of rows2 key := by
  unfold VerifyWithDb.db_id_of
  rw [sortedNames_eq_of_perm rows1 rows2 h]

/-- Witness for C6 on two concrete reordered row lists. -/
theorem claim_C6_witness :
    (["Иванов Пётр", "Сидорова Анна"] : List String).Perm
        ["Сидорова Анна", "Иванов Пётр"] ∧
    VerifyWithDb.db_id_of ["Иванов Пётр", "Сидорова Анна"] "иванов петр" =
      VerifyWithDb.db_id_of ["Сидорова Анна", "Иванов Пётр"] "иванов петр" :=
  ⟨List.Perm.swap "Сидорова Анна" "Иванов Пётр" [],
    claim_C6_db_id_row_order_independent _ _ "иванов петр"
      (List.Perm.swap "Сидорова Анна" "Иванов Пётр" [])⟩

/-! ### Claim C7 -/

/-- C7 counterexample: the registry-matcher normalize_name of
verify_with_db preserves word order, so the two orders of the same name
normalize differently, refuting word-order independence for every
component of the core. -/
theorem claim_C7_counterexample :
    VerifyWithDb.normalize_name "Ivanov Petr" ≠ VerifyWithDb.normalize_name "Petr Ivanov" := by
  decide

/-- C7 amended: the grouper normalize_name of client_card_ocr is word-order
independent: any two strings whose whitespace words (after strip and
lower) are permutations of each other normalize identically. -/
theorem claim_C7_grouper_normalize_word_order (s t : String)
    (h : (pyWordsAux (pyLower (pyStrip t.data)) []).Perm
      (pyWordsAux (pyLower (pyStrip s.data)) [])) :
    ClientCardOcr.normalize_name s = ClientCardOcr.normalize_name t := by
  unfold ClientCardOcr.normalize_name
  by_cases hs : s = "" <;> by_cases ht : t = ""
  · rw [if_pos hs, if_pos ht]
  · subst hs
    rw [if_pos rfl, if_neg ht]
    have hnil : pyWordsAux (pyLower (pyStrip t.data)) [] = [] := List.Perm.eq_nil h
    rw [hnil, List.mergeSort_nil]
    rfl
  · subst ht
    rw [if_pos rfl, if_neg hs]
    have hnil : pyWordsAux (pyLower (pyStrip s.data)) [] = [] := List.Perm.eq_nil h.symm
    rw [hnil, List.mergeSort_nil]
    rfl
  · rw [if_neg hs, if_neg ht]
    exact congrArg joinWords (mergeSort_pyStrLe_eq_of_perm h.symm)

/-- Witness for C7 at the example pair of the spec. -/
theorem claim_C7_witness :
    (pyWordsAux (pyLower (pyStrip "Petr Ivanov".data)) []).Perm
        (pyWordsAux (pyLower (pyStrip "Ivanov Petr".data)) []) ∧
    ClientCardOcr.normalize_name "Ivanov Petr" = ClientCardOcr.normalize_name "Petr Ivanov" :=
  ⟨by decide, claim_C7_grouper_normalize_word_order "Ivanov Petr" "Petr Ivanov" (by decide)⟩

/-! ### Claim C3 -/

theorem dedupInner_inv (dup : Nat → Nat → Bool) (lenf : Nat → Nat) (i : Nat) :
    ∀ (js rem : List Nat) (evals : List (Nat × Nat × List Nat)),
      (∀ e ∈ evals, e.2.1 ∉ e.2.2) →
      ∀ e ∈ (ClientCardOcr.dedupInner dup lenf i js rem evals).2, e.2.1 ∉ e.2.2
  | [], _, _, h => h
  | j :: js, rem, evals, h => by
    simp only [ClientCardOcr.dedupInner]
    split
    · exact dedupInner_inv dup lenf i js rem evals h
    · rename_i hj
      apply dedupInner_inv dup lenf i js
      intro e he
      rcases List.mem_append.mp he with he | he
      · exact h e he
      · rcases List.mem_singleton.mp he with rfl
        exact hj

theorem dedupOuter_inv (dup : Nat → Nat → Bool) (lenf : Nat → Nat) (n : Nat) :
    ∀ (is rem : List Nat) (evals : List (Nat × Nat × List Nat))
      (outer : List (Nat × List Nat)),
      (∀ e ∈ evals, e.2.1 ∉ e.2.2) → (∀ o ∈ outer, o.1 ∉ o.2) →
      (∀ e ∈ (ClientCardOcr.dedupOuter dup lenf n is rem evals outer).2.1, e.2.1 ∉ e.2.2) ∧
      (∀ o ∈ (ClientCardOcr.dedupOuter dup lenf n is rem evals outer).2.2, o.1 ∉ o.2)
  | [], _, _, _, h1, h2 => ⟨h1, h2⟩
  | i :: is, rem, evals, outer, h1, h2 => by
    simp only [ClientCardOcr.dedupOuter]
    split
    · exact dedupOuter_inv dup lenf n is rem evals outer h1 h2
    · rename_i hi
      apply dedupOuter_inv dup lenf n is
      · exact dedupInner_inv dup lenf i _ rem evals h1
      · intro o ho
        rcases List.mem_append.mp ho with ho | ho
        · exact h2 o ho
        · rcases List.mem_singleton.mp ho with rfl
          exact hi

unseal Rat.mul Rat.inv Rat.add Rat.sub in
set_option maxRecDepth 8000 in
/-- C3 counterexample: on a cluster of three structurally equal pages with
OCR texts of lengths 2, 3 and 1, the pair (0, 2) is evaluated while page 0
is already in the removal set (page 0 was marked during its own inner
loop), so it is false that neither index of an evaluated pair is already
marked; page 0 then causes the removal of page 2. -/
theorem claim_C3_counterexample :
    ¬(∀ e ∈ (ClientCardOcr.dedupScanPages ratioQ (9 / 10)
        [⟨"medical_card_front", "", "", "", "ab", "p0.jpg", "", "\x7b\x7d"⟩,
         ⟨"medical_card_front", "", "", "", "abc", "p1.jpg", "", "\x7b\x7d"⟩,
         ⟨"medical_card_front", "", "", "", "a", "p2.jpg", "", "\x7b\x7d"⟩]).2.1,
      e.1 ∉ e.2.2 ∧ e.2.1 ∉ e.2.2) := by
  decide

/-- C3 amended: in the dedup pair scan, the second index j of an evaluated
pair is never already in the removal set (marked pages are never
re-compared as j), and an outer iteration is only entered for a first
index i not yet marked at entry time; however a page marked during its own
inner loop continues to be compared as i, as the counterexample shows. -/
theorem claim_C3_no_marked_page_recompared (dup : Nat → Nat → Bool)
    (lenf : Nat → Nat) (n : Nat) :
    (∀ e ∈ (ClientCardOcr.dedupScan dup lenf n).2.1, e.2.1 ∉ e.2.2) ∧
    (∀ o ∈ (ClientCardOcr.dedupScan dup lenf n).2.2, o.1 ∉ o.2) :=
  dedupOuter_inv dup lenf n (List.range n) [] [] []
    (fun _ he => absurd he (List.not_mem_nil _)) (fun _ ho => absurd ho (List.not_mem_nil _))

/-- Witness for C3 at a concrete two-page scan. -/
theorem claim_C3_witness :
    ((0, 1, ([] : List Nat)) ∈
      (ClientCardOcr.dedupScan (fun _ _ => true) (fun _ => 0) 2).2.1) ∧
    (1 : Nat) ∉ ([] : List Nat) :=
  ⟨by decide, (claim_C3_no_marked_page_recompared (fun _ _ => true) (fun _ => 0) 2).1
    (0, 1, []) (by decide)⟩

/-! ### Claim C9 -/

theorem countP_zip_self_ne : ∀ l : List Char,
    (l.zip l).countP (fun p => decide (p.1 ≠ p.2)) = 0
  | [] => rfl
  | c :: t => by
    simp only [List.zip_cons_cons, List.countP_cons, countP_zip_self_ne t]
    simp

theorem hamming_distance_self (h : String) (hne : h ≠ "") :
    ClientCardOcr.hamming_distance h h = 0 := by
  unfold ClientCardOcr.hamming_distance
  rw [if_neg (by simp [hne])]
  rw [countP_zip_self_ne h.data]
  simp

/-- C9: when a two-page cluster holds a duplicate pair, deduplicate_pages
removes the page with the shorter OCR text (keeping the longer one), and
on equal lengths removes the later page and keeps the earlier; in
particular two pages with identical nonempty perceptual signatures and
identical text collapse to the earlier page. -/
theorem claim_C9_dedup_keeps_longer :
    (∀ (sim : String → String → ℚ) (thr : ℚ) (name phone iin : String)
      (p0 p1 : ClientCardOcr.Page),
      ClientCardOcr.isDuplicate sim thr [p0, p1] [p0.img_hash, p1.img_hash] 0 1 = true →
      ClientCardOcr.deduplicate_pages sim thr [("client_1", ⟨name, phone, iin, [p0, p1]⟩)] =
        [("client_1", ⟨name, phone, iin,
          if p1.ocr_text.length ≤ p0.ocr_text.length then [p0] else [p1]⟩)]) ∧
    (∀ (sim : String → String → ℚ) (thr : ℚ) (name phone iin : String)
      (p0 p1 : ClientCardOcr.Page),
      p0.img_hash = p1.img_hash → p0.img_hash ≠ "" → p0.ocr_text = p1.ocr_text →
      ClientCardOcr.deduplicate_pages sim thr [("client_1", ⟨name, phone, iin, [p0, p1]⟩)] =
        [("client_1", ⟨name, phone, iin, [p0]⟩)]) := by
  have hA : ∀ (sim : String → String → ℚ) (thr : ℚ) (name phone iin : String)
      (p0 p1 : ClientCardOcr.Page),
      ClientCardOcr.isDuplicate sim thr [p0, p1] [p0.img_hash, p1.img_hash] 0 1 = true →
      ClientCardOcr.deduplicate_pages sim thr [("client_1", ⟨name, phone, iin, [p0, p1]⟩)] =
        [("client_1", ⟨name, phone, iin,
          if p1.ocr_text.length ≤ p0.ocr_text.length then [p0] else [p1]⟩)] := by
    intro sim thr name phone iin p0 p1 h
    have hrange : List.range 2 = [0, 1] := rfl
    by_cases hl : p1.ocr_text.length ≤ p0.ocr_text.length <;>
      simp [ClientCardOcr.deduplicate_pages, ClientCardOcr.dedupScanPages,
        ClientCardOcr.dedupScan, ClientCardOcr.dedupOuter, ClientCardOcr.dedupInner,
        ClientCardOcr.pushIdx, ClientCardOcr.filterRemoved, hrange, List.range',
        h, hl]
  refine ⟨hA, ?_⟩
  intro sim thr name phone iin p0 p1 h1 h2 h3
  have hdup : ClientCardOcr.isDuplicate sim thr [p0, p1] [p0.img_hash, p1.img_hash] 0 1 = true := by
    unfold ClientCardOcr.isDuplicate
    rw [← h1]
    simp [h2, hamming_distance_self p0.img_hash h2]
  rw [hA sim thr name phone iin p0 p1 hdup, if_pos (by rw [h3])]

/-- Witness for C9 on two pages with identical signatures and identical
text: the earlier page is kept. -/
theorem claim_C9_witness :
    ClientCardOcr.deduplicate_pages ratioQ (9 / 10)
      [("client_1", ⟨"x", "", "",
        [⟨"medical_card_front", "", "", "", "same text", "a.jpg", "1010", "\x7bA\x7d"⟩,
         ⟨"medical_card_inner", "", "", "", "same text", "b.jpg", "1010", "\x7bB\x7d"⟩]⟩)] =
      [("client_1", ⟨"x", "", "",
        [⟨"medical_card_front", "", "", "", "same text", "a.jpg", "1010", "\x7bA\x7d"⟩]⟩)] :=
  claim_C9_dedup_keeps_longer.2 ratioQ (9 / 10) "x" "" ""
    ⟨"medical_card_front", "", "", "", "same text", "a.jpg", "1010", "\x7bA\x7d"⟩
    ⟨"medical_card_inner", "", "", "", "same text", "b.jpg", "1010", "\x7bB\x7d"⟩
    rfl (by decide) rfl

/-! ### Claim C1 -/

theorem allPages_append : ∀ cs ds : ClientCardOcr.Clients,
    ClientCardOcr.allPages (cs ++ ds) =
      ClientCardOcr.allPages cs ++ ClientCardOcr.allPages ds
  | [], _ => rfl
  | (_, c) :: rest, ds => by
    simp [ClientCardOcr.allPages, allPages_append rest ds]

theorem allPages_length : ∀ cs : ClientCardOcr.Clients,
    (ClientCardOcr.allPages cs).length = (cs.map (fun e => e.2.pages.length)).sum
  | [] => rfl
  | (_, c) :: rest => by
    simp [ClientCardOcr.allPages, allPages_length rest]

/-- Reordering helper used by all the conservation steps. -/
theorem perm_shuffle (A U ps : List ClientCardOcr.Page) :
    ((A ++ ps) ++ U).Perm ((A ++ U) ++ ps) := by
  rw [List.append_assoc, List.append_assoc]
  exact List.Perm.append_left A List.perm_append_comm

theorem find_matching_mem (fm : String → String → ℚ) (thr : ℚ)
    (ids : ClientCardOcr.Identifiers) :
    ∀ (cs : ClientCardOcr.Clients) (k : String),
      ClientCardOcr.find_matching_client fm thr ids cs = some k →
      cs.any (fun e => e.1 = k) = true
  | [], k => by simp [ClientCardOcr.find_matching_client]
  | (k', c) :: rest, k => by
    simp only [ClientCardOcr.find_matching_client]
    split
    · intro h
      simp only [Option.some.injEq] at h
      simp [h]
    · intro h
      simp [find_matching_mem fm thr ids rest k h]

theorem allPages_updateClient (k : String) (ps : List ClientCardOcr.Page)
    (f : ClientCardOcr.Client → ClientCardOcr.Client)
    (hf : ∀ c, (f c).pages = c.pages ++ ps) :
    ∀ cs : ClientCardOcr.Clients, cs.any (fun e => e.1 = k) = true →
      (ClientCardOcr.allPages (ClientCardOcr.updateClient cs k f)).Perm
        (ClientCardOcr.allPages cs ++ ps)
  | [], h => by simp at h
  | (k', c) :: rest, h => by
    simp only [ClientCardOcr.updateClient]
    split
    · simp only [ClientCardOcr.allPages]
      rw [hf c]
      exact perm_shuffle c.pages (ClientCardOcr.allPages rest) ps
    · rename_i hk
      have h' : rest.any (fun e => e.1 = k) = true := by
        simpa [List.any_cons, hk] using h
      simp only [ClientCardOcr.allPages]
      rw [List.append_assoc]
      exact List.Perm.append_left c.pages (allPages_updateClient k ps f hf rest h')

theorem processPage_perm (fm : String → String → ℚ) (thr : ℚ)
    (st : ClientCardOcr.GState) (p : ClientCardOcr.Page) :
    (ClientCardOcr.allPages (ClientCardOcr.processPage fm thr st p).clients ++
      (ClientCardOcr.processPage fm thr st p).unmatched).Perm
      ((ClientCardOcr.allPages st.clients ++ st.unmatched) ++ [p]) := by
  simp only [ClientCardOcr.processPage]
  split
  · rw [← List.append_assoc]
  · split
    · rw [← List.append_assoc]
    · split
      · rename_i key hkey
        have hk := find_matching_mem fm thr (ClientCardOcr.extract_identifiers p)
          st.clients key hkey
        have h1 := allPages_updateClient key [p]
          (ClientCardOcr.appendAndBackfill (ClientCardOcr.extract_identifiers p) p)
          (fun c => rfl) st.clients hk
        exact (h1.append_right st.unmatched).trans
          (perm_shuffle (ClientCardOcr.allPages st.clients) st.unmatched [p])
      · rw [allPages_append]
        simp only [ClientCardOcr.allPages, List.append_nil]
        exact perm_shuffle (ClientCardOcr.allPages st.clients) st.unmatched [p]

theorem foldl_processPage_perm (fm : String → String → ℚ) (thr : ℚ) :
    ∀ (ps : List ClientCardOcr.Page) (st : ClientCardOcr.GState),
      (ClientCardOcr.allPages ((ps.foldl (ClientCardOcr.processPage fm thr) st)).clients ++
        (ps.foldl (ClientCardOcr.processPage fm thr) st).unmatched).Perm
        ((ClientCardOcr.allPages st.clients ++ st.unmatched) ++ ps)
  | [], st => by simp
  | p :: ps, st => by
    simp only [List.foldl_cons]
    have h1 := foldl_processPage_perm fm thr ps (ClientCardOcr.processPage fm thr st p)
    have h2 := (processPage_perm fm thr st p).append_right ps
    have heq : ((ClientCardOcr.allPages st.clients ++ st.unmatched) ++ [p]) ++ ps =
        (ClientCardOcr.allPages st.clients ++ st.unmatched) ++ (p :: ps) := by
      rw [List.append_assoc, List.singleton_append]
    exact h1.trans (heq ▸ h2)

theorem attachStep_perm (fm : String → String → ℚ) (thr : ℚ)
    (acc : ClientCardOcr.Clients × List ClientCardOcr.Page) (p : ClientCardOcr.Page) :
    (ClientCardOcr.allPages (ClientCardOcr.attachStep fm thr acc p).1 ++
      (ClientCardOcr.attachStep fm thr acc p).2).Perm
      ((ClientCardOcr.allPages acc.1 ++ acc.2) ++ [p]) := by
  simp only [ClientCardOcr.attachStep]
  split
  · rename_i key hkey
    have hfind : ClientCardOcr.find_matching_client fm thr
        (ClientCardOcr.extract_identifiers p) acc.1 = some key := by
      split at hkey
      · exact hkey
      · cases hkey
    have hk := find_matching_mem fm thr (ClientCardOcr.extract_identifiers p) acc.1 key hfind
    have h1 := allPages_updateClient key [p]
      (fun c => { c with pages := c.pages ++ [p] }) (fun c => rfl) acc.1 hk
    exact (h1.append_right acc.2).trans
      (perm_shuffle (ClientCardOcr.allPages acc.1) acc.2 [p])
  · rw [← List.append_assoc]

theorem foldl_attachStep_perm (fm : String → String → ℚ) (thr : ℚ) :
    ∀ (ps : List ClientCardOcr.Page) (acc : ClientCardOcr.Clients × List ClientCardOcr.Page),
      (ClientCardOcr.allPages ((ps.foldl (ClientCardOcr.attachStep fm thr) acc)).1 ++
        (ps.foldl (ClientCardOcr.attachStep fm thr) acc).2).Perm
        ((ClientCardOcr.allPages acc.1 ++ acc.2) ++ ps)
  | [], acc => by simp
  | p :: ps, acc => by
    simp only [List.foldl_cons]
    have h1 := foldl_attachStep_perm fm thr ps (ClientCardOcr.attachStep fm thr acc p)
    have h2 := (attachStep_perm fm thr acc p).append_right ps
    have heq : ((ClientCardOcr.allPages acc.1 ++ acc.2) ++ [p]) ++ ps =
        (ClientCardOcr.allPages acc.1 ++ acc.2) ++ (p :: ps) := by
      rw [List.append_assoc, List.singleton_append]
    exact h1.trans (heq ▸ h2)

theorem updateClient_any_key (k' : String) (f : ClientCardOcr.Client → ClientCardOcr.Client)
    (k : String) : ∀ cs : ClientCardOcr.Clients,
      (ClientCardOcr.updateClient cs k' f).any (fun e => e.1 = k) =
        cs.any (fun e => e.1 = k)
  | [] => rfl
  | (k0, c) :: rest => by
    simp only [ClientCardOcr.updateClient]
    split
    · simp [List.any_cons]
    · simp [List.any_cons, updateClient_any_key k' f k rest]

theorem foldl_attachStep_any_key (fm : String → String → ℚ) (thr : ℚ) (k : String) :
    ∀ (ps : List ClientCardOcr.Page) (acc : ClientCardOcr.Clients × List ClientCardOcr.Page),
      ((ps.foldl (ClientCardOcr.attachStep fm thr) acc).1).any (fun e => e.1 = k) =
        (acc.1).any (fun e => e.1 = k)
  | [], _ => rfl
  | p :: ps, acc => by
    simp only [List.foldl_cons]
    rw [foldl_attachStep_any_key fm thr k ps (ClientCardOcr.attachStep fm thr acc p)]
    simp only [ClientCardOcr.attachStep]
    split
    · exact updateClient_any_key _ _ k acc.1
    · rfl

theorem resolveUnmatched_perm (fm : String → String → ℚ) (thr : ℚ)
    (st : ClientCardOcr.GState) :
    (ClientCardOcr.allPages (ClientCardOcr.resolveUnmatched fm thr st)).Perm
      (ClientCardOcr.allPages st.clients ++ st.unmatched) := by
  simp only [ClientCardOcr.resolveUnmatched]
  split
  · rename_i hnil
    rw [hnil, List.append_nil]
  · rename_i p0 rest hcons
    split
    · rename_i hex
      have hkey : st.clients.any (fun e => e.1 = "client_1") = false := by
        rw [List.any_eq_false]
        intro e he
        have := List.filter_eq_nil_iff.mp hex e he
        simp only [decide_not, Bool.not_eq_true', decide_eq_false_iff_not,
          Decidable.not_not] at this
        simp [this]
      rw [ClientCardOcr.assocSet, if_neg (by simp [hkey]), allPages_append]
      simp [ClientCardOcr.allPages]
    · rename_i hex
      rcases hcases : st.clients.filter (fun e => decide (e.1 ≠ "_unmatched")) with _ | ⟨e, tl⟩
      · exact absurd hcases hex
      · have hmem : e ∈ st.clients :=
          List.mem_of_mem_filter (hcases ▸ List.mem_cons_self e tl)
        have hin : st.clients.any (fun x => x.1 = e.1) = true :=
          List.any_eq_true.mpr ⟨e, hmem, by simp⟩
        have hfold := foldl_attachStep_perm fm thr st.unmatched (st.clients, [])
        simp only [List.append_nil] at hfold
        split
        · rename_i hrem
          have := hfold
          rw [hrem, List.append_nil] at this
          exact this
        · rename_i hrem
          have hkeys : ((st.unmatched.foldl (ClientCardOcr.attachStep fm thr)
              (st.clients, [])).1).any (fun x => x.1 = e.1) = true := by
            rw [foldl_attachStep_any_key fm thr e.1 st.unmatched (st.clients, [])]
            exact hin
          have h2 := allPages_updateClient
            ((st.clients.filter (fun e => e.1 ≠ "_unmatched")).headD ("", default)).1
            (st.unmatched.foldl (ClientCardOcr.attachStep fm thr) (st.clients, [])).2
            (fun c => { c with pages := c.pages ++
              (st.unmatched.foldl (ClientCardOcr.attachStep fm thr) (st.clients, [])).2 })
            (fun c => rfl)
            (st.unmatched.foldl (ClientCardOcr.attachStep fm thr) (st.clients, [])).1
            (by rw [hcases]; simpa using hkeys)
          exact h2.trans hfold

/-- C1: group_by_client conserves pages: the pages of the returned clusters
are a permutation of the input batch (no page dropped, none duplicated),
for every fuzzy backend and threshold, and the cluster page counts sum to
the input length. -/
theorem claim_C1_group_by_client_conserves (fm : String → String → ℚ) (thr : ℚ)
    (results : List ClientCardOcr.Page) :
    (ClientCardOcr.allPages (ClientCardOcr.group_by_client fm thr results)).Perm results ∧
    ((ClientCardOcr.group_by_client fm thr results).map
      (fun e => e.2.pages.length)).sum = results.length := by
  have hperm : (ClientCardOcr.allPages (ClientCardOcr.group_by_client fm thr results)).Perm
      results := by
    unfold ClientCardOcr.group_by_client
    have h1 := resolveUnmatched_perm fm thr
      ((results.mergeSort (fun a b => decide (ClientCardOcr.prioKey a ≤
        ClientCardOcr.prioKey b))).foldl (ClientCardOcr.processPage fm thr) ⟨[], []⟩)
    have h2 := foldl_processPage_perm fm thr
      (results.mergeSort (fun a b => decide (ClientCardOcr.prioKey a ≤
        ClientCardOcr.prioKey b))) ⟨[], []⟩
    simp only [ClientCardOcr.allPages, List.nil_append] at h2
    exact (h1.trans h2).trans (List.mergeSort_perm results _)
  refine ⟨hperm, ?_⟩
  rw [← allPages_length, hperm.length_eq]

end OcrProject
